import Mathlib

/-!
# Verification of the crockford base32 helper library

Shallow embedding of `crockford.go`.  Go byte slices are modelled as
`GoSlice` (the backing array from the slice start through its capacity,
plus the slice length); Go byte strings and `[]byte` contents are
`List Nat` of byte values; the signed 64-bit Unix second count is `Int`.

The byte-level base32 transform (`encoding/base32` with a 32-character
alphabet and `NoPadding`) is an external collaborator of the library; it
is embedded by its standard semantics: the input bytes form a big-endian
bit string, which is cut into 5-bit groups (the last group padded with
zero bits on the right), and each group value indexes the alphabet.
`crypto/rand` and `crypto/md5` are likewise external: the random bytes
and the digest function are passed in as parameters.
-/

namespace Crockford

/-- Byte values of a string constant (all characters here are ASCII). -/
def strBytes (s : String) : List Nat := s.data.map Char.toNat

/-- `LowercaseAlphabet` from `crockford.go`. -/
def LowercaseAlphabet : String := "0123456789abcdefghjkmnpqrstvwxyz"

/-- `UppercaseAlphabet` from `crockford.go`. -/
def UppercaseAlphabet : String := "0123456789ABCDEFGHJKMNPQRSTVWXYZ"

/-- `UppercaseChecksum = UppercaseAlphabet + "*~$=U"` from `crockford.go`. -/
def UppercaseChecksum : String := UppercaseAlphabet ++ "*~$=U"

/-- `LowercaseChecksum = LowercaseAlphabet + "*~$=u"` from `crockford.go`. -/
def LowercaseChecksum : String := LowercaseAlphabet ++ "*~$=u"

/-- `LenTime` from `crockford.go`. -/
def LenTime : Nat := 8

/-- `LenRandom` from `crockford.go`. -/
def LenRandom : Nat := 8

/-- `LenMD5` from `crockford.go`. -/
def LenMD5 : Nat := 26

/-! ## Go slices -/

/-- A Go byte slice: `arr` is the backing array from the slice start
through its capacity, `len` the slice length.  `cap s = s.arr.length`. -/
structure GoSlice where
  arr : List Nat
  len : Nat
deriving DecidableEq, Repr

/-- `cap` of a Go slice. -/
def GoSlice.cap (s : GoSlice) : Nat := s.arr.length

/-- The observable bytes `s[0:len]` of a slice. -/
def GoSlice.contents (s : GoSlice) : List Nat := s.arr.take s.len

/-- Well-formedness: the length never exceeds the capacity. -/
def GoSlice.wf (s : GoSlice) : Prop := s.len ≤ s.arr.length

instance (s : GoSlice) : Decidable s.wf := by unfold GoSlice.wf; infer_instance

/-- Overwrite the backing array at positions `[i, i + xs.length)` with `xs`. -/
def setSeg (arr : List Nat) (i : Nat) (xs : List Nat) : List Nat :=
  arr.take i ++ xs ++ arr.drop (i + xs.length)

/-- Go's built-in `append(b, xs...)`: reuse the backing array when the
capacity suffices, otherwise reallocate (the fresh capacity is modelled
as exactly the new length; Go only promises it is at least that). -/
def goAppend (b : GoSlice) (xs : List Nat) : GoSlice :=
  if b.len + xs.length ≤ b.arr.length then
    ⟨setSeg b.arr b.len xs, b.len + xs.length⟩
  else
    ⟨b.arr.take b.len ++ xs, b.len + xs.length⟩

/-- `ensure` from `crockford.go`: extend `b` by `size` bytes, reusing
capacity when `cap(b) >= len(b)+size`, else `append(b, make([]byte, size)...)`.
The returned slice is `ret`; the write target `tar` is `ret[len(b):]`. -/
def ensure (size : Nat) (b : GoSlice) : GoSlice :=
  if b.len + size ≤ b.arr.length then ⟨b.arr, b.len + size⟩
  else goAppend b (List.replicate size 0)

/-- `grow` from `crockford.go`: `if cap(b)-len(b) > n { return b }`;
otherwise `append(b, make([]byte, n)...)[:len(b)]`. -/
def grow (b : GoSlice) (n : Nat) : GoSlice :=
  if b.arr.length - b.len > n then b
  else { goAppend b (List.replicate n 0) with len := b.len }

/-! ## The base32 collaborator -/

/-- Big-endian base-256 value of a byte sequence. -/
def beVal (bs : List Nat) : Nat := bs.foldl (fun a c => a * 256 + c) 0

/-- The `n` big-endian base-`B` digits of `u` (most significant first). -/
def digitsBE (B : Nat) : Nat → Nat → List Nat
  | 0, _ => []
  | n + 1, u => u / B ^ n % B :: digitsBE B n (u % B ^ n)

/-- `base32.Encoding.EncodedLen` with `NoPadding`: `(8*n + 4) / 5`. -/
def encodedLen (n : Nat) : Nat := (8 * n + 4) / 5

/-- Zero bits appended on the right so the bit string cuts into 5-bit groups. -/
def padBits (n : Nat) : Nat := 5 * encodedLen n - 8 * n

/-- `encoding/base32` `Encode` with `NoPadding`: the bytes form a
big-endian bit string, cut into 5-bit groups (last group zero-padded on
the right); each group value selects a byte of the alphabet. -/
def b32encode (alpha : List Nat) (bs : List Nat) : List Nat :=
  (digitsBE 32 (encodedLen bs.length) (beVal bs * 2 ^ padBits bs.length)).map
    (fun v => alpha.getD v 0)

/-! ## Time encoder -/

/-- Go `byte(x)` of a signed integer: the low 8 bits (`%` on `Int` is the
euclidean `Int.emod`, nonnegative here). -/
def int64Byte (x : Int) : Nat := (x % 256).toNat

/-- The 5-byte scratch buffer of `AppendTime`: `byte(ut >> 32)`, ...,
`byte(ut)` (`>>` is the arithmetic shift on `int64`, i.e. `Int.fdiv` by a
power of two). -/
def timeSrc (ut : Int) : List Nat :=
  [int64Byte (ut.fdiv (2 ^ 32)), int64Byte (ut.fdiv (2 ^ 24)),
   int64Byte (ut.fdiv (2 ^ 16)), int64Byte (ut.fdiv (2 ^ 8)), int64Byte ut]

/-- `AppendTime` from `crockford.go`: `ret, tar := ensure(LenTime, dst)`
then `e.Encode(tar, src[:])` writes the 8 encoded bytes at `dst.len`. -/
def AppendTime (alpha : List Nat) (ut : Int) (dst : GoSlice) : GoSlice :=
  let r := ensure LenTime dst
  ⟨setSeg r.arr dst.len (b32encode alpha (timeSrc ut)), r.len⟩

/-- `Time` from `crockford.go`: `string(AppendTime(e, t, nil))`. -/
def Time (alpha : List Nat) (ut : Int) : List Nat :=
  (AppendTime alpha ut ⟨[], 0⟩).contents

/-! ## Checksum -/

/-- `mod` from `crockford.go`: `rem = (rem*1<<8 + int(c)) % m` over the bytes. -/
def mod (b : List Nat) (m : Nat) : Nat :=
  b.foldl (fun rem c => (rem * 256 + c) % m) 0

/-- `Checksum` from `crockford.go`: index the 37-symbol checksum alphabet
at `mod(body, 37)`. -/
def Checksum (body : List Nat) (uppercase : Bool) : Nat :=
  (if uppercase then strBytes UppercaseChecksum else strBytes LowercaseChecksum).getD
    (mod body 37) 0

/-! ## Normalizer -/

/-- Pass-through characters of `normUpper`'s third switch case. -/
def normPass : List Nat := strBytes "23456789ABCDEFGHJKMNPQRSTVWXYZ*~$=U"

/-- Lowercase characters of `normUpper`'s fourth switch case. -/
def normLowercase : List Nat := strBytes "abcdefghjkmnpqrstvwxyzu"

/-- `normUpper` from `crockford.go`; the Go `switch` on the byte `c`.
`c + 'A' - 'a'` never wraps for the bytes of the fourth case. -/
def normUpper (c : Nat) : Nat :=
  if c = '0'.toNat ∨ c = 'O'.toNat ∨ c = 'o'.toNat then '0'.toNat
  else if c = '1'.toNat ∨ c = 'I'.toNat ∨ c = 'i'.toNat then '1'.toNat
  else if c ∈ normPass then c
  else if c ∈ normLowercase then c + 'A'.toNat - 'a'.toNat
  else 0

/-- `AppendNormalized` from `crockford.go`: when `cap(dst) == 0` start from
`make([]byte, 0, len(src))`, then `append` each non-zero `normUpper c`. -/
def AppendNormalized (dst : GoSlice) (src : List Nat) : GoSlice :=
  let d0 := if dst.arr.length = 0 then ⟨List.replicate src.length 0, 0⟩ else dst
  src.foldl (fun d c => if normUpper c ≠ 0 then goAppend d [normUpper c] else d) d0

/-- `Normalized` from `crockford.go`: `string(AppendNormalized(nil, []byte(s)))`. -/
def Normalized (s : List Nat) : List Nat :=
  (AppendNormalized ⟨[], 0⟩ s).contents

/-- The bytes `AppendNormalized` appends: kept characters after `normUpper`. -/
def normList (src : List Nat) : List Nat :=
  src.filterMap (fun c => if normUpper c ≠ 0 then some (normUpper c) else none)

/-! ## Random and MD5 encoders -/

/-- `AppendRandom` from `crockford.go` after a successful `rand.Read`:
`grow(dst, LenRandom)`, the 5 random bytes `rnd` land in
`dst[len:len+5]`, and `e.Encode` then overwrites `dst[len:len+8]` with
their encoding (the std `Encode` reads each 5-byte group fully before
writing, so the in-place overlap is benign). -/
def AppendRandom (alpha : List Nat) (rnd : List Nat) (dst : GoSlice) : GoSlice :=
  let g := grow dst LenRandom
  ⟨setSeg g.arr dst.len (b32encode alpha rnd), dst.len + LenRandom⟩

/-- `AppendRandom` including the `rand.Read` error path: `randRead` is the
outcome of the entropy source (`none` = read error); Go's
`panic(err)` is the `Except.error` case. -/
def AppendRandomChecked (alpha : List Nat) (randRead : Option (List Nat))
    (dst : GoSlice) : Except String GoSlice :=
  match randRead with
  | none => Except.error "panic: entropy source failure"
  | some rnd => Except.ok (AppendRandom alpha rnd dst)

/-- `AppendMD5` from `crockford.go`, parametrized by the `crypto/md5`
collaborator `digest` (whose contract fixes `(digest src).length = 16`):
`ret, tar := ensure(LenMD5, dst)` then `e.Encode(tar, buf[:])`. -/
def AppendMD5 (alpha : List Nat) (digest : List Nat → List Nat)
    (dst : GoSlice) (src : List Nat) : GoSlice :=
  let r := ensure LenMD5 dst
  ⟨setSeg r.arr dst.len (b32encode alpha (digest src)), r.len⟩

/-! ## Basic lemmas about slices and the encoders -/

theorem setSeg_length {arr : List Nat} {i : Nat} {xs : List Nat}
    (h : i + xs.length ≤ arr.length) : (setSeg arr i xs).length = arr.length := by
  simp only [setSeg, List.length_append, List.length_take, List.length_drop]
  omega

theorem setSeg_take {arr : List Nat} {i : Nat} (xs : List Nat) (h : i ≤ arr.length) :
    (setSeg arr i xs).take (i + xs.length) = arr.take i ++ xs := by
  have h1 : (arr.take i ++ xs).length = i + xs.length := by
    simp [List.length_append, List.length_take]
    omega
  conv_lhs => rw [setSeg, ← h1]
  exact List.take_left _ _

theorem setSeg_take_front {arr : List Nat} {i : Nat} (xs : List Nat) (h : i ≤ arr.length) :
    (setSeg arr i xs).take i = arr.take i := by
  have h1 : (arr.take i).length = i := by simp [List.length_take]; omega
  rw [setSeg, List.append_assoc, List.take_append_eq_append_take, List.take_take, h1]
  simp

theorem goAppend_len (b : GoSlice) (xs : List Nat) :
    (goAppend b xs).len = b.len + xs.length := by
  unfold goAppend; split <;> rfl

theorem goAppend_cap_ge (b : GoSlice) (xs : List Nat) (hwf : b.wf) :
    b.len + xs.length ≤ (goAppend b xs).arr.length := by
  unfold goAppend; split
  next h => rw [setSeg_length h]; exact h
  next h =>
    simp only [GoSlice.wf] at hwf
    simp [List.length_append, List.length_take]
    omega

theorem goAppend_take (b : GoSlice) (xs : List Nat) (hwf : b.wf) :
    (goAppend b xs).arr.take b.len = b.arr.take b.len := by
  have h1 : (b.arr.take b.len).length = b.len := by
    simp only [GoSlice.wf] at hwf
    simp [List.length_take]; omega
  unfold goAppend; split
  next h => exact setSeg_take_front _ (le_trans (Nat.le_add_right _ _) h)
  next h =>
    rw [List.take_append_eq_append_take, List.take_take, h1]
    simp

theorem ensure_len (size : Nat) (b : GoSlice) : (ensure size b).len = b.len + size := by
  unfold ensure; split
  · rfl
  · rw [goAppend_len]; simp

theorem ensure_cap_ge (size : Nat) (b : GoSlice) (hwf : b.wf) :
    b.len + size ≤ (ensure size b).arr.length := by
  unfold ensure; split
  next h => exact h
  next h =>
    have := goAppend_cap_ge b (List.replicate size 0) hwf
    simpa using this

theorem ensure_take (size : Nat) (b : GoSlice) (hwf : b.wf) :
    (ensure size b).arr.take b.len = b.arr.take b.len := by
  unfold ensure; split
  · rfl
  · exact goAppend_take _ _ hwf

theorem grow_len (b : GoSlice) (n : Nat) : (grow b n).len = b.len := by
  unfold grow; split <;> rfl

theorem grow_cap_ge (b : GoSlice) (n : Nat) (hwf : b.wf) :
    b.len + n ≤ (grow b n).arr.length := by
  unfold grow; split
  next h => omega
  next h =>
    have := goAppend_cap_ge b (List.replicate n 0) hwf
    simpa using this

theorem grow_take (b : GoSlice) (n : Nat) (hwf : b.wf) :
    (grow b n).arr.take b.len = b.arr.take b.len := by
  unfold grow; split
  · rfl
  · exact goAppend_take _ _ hwf

theorem digitsBE_length (B n u : Nat) : (digitsBE B n u).length = n := by
  induction n generalizing u with
  | zero => rfl
  | succ n ih => simp [digitsBE, ih]

theorem b32encode_length (alpha bs : List Nat) :
    (b32encode alpha bs).length = encodedLen bs.length := by
  simp [b32encode, digitsBE_length]

theorem goAppend_wf (b : GoSlice) (xs : List Nat) (hwf : b.wf) : (goAppend b xs).wf := by
  unfold GoSlice.wf
  rw [goAppend_len]
  exact goAppend_cap_ge b xs hwf

theorem goAppend_contents (b : GoSlice) (xs : List Nat) (hwf : b.wf) :
    (goAppend b xs).contents = b.contents ++ xs := by
  have hwf' : b.len ≤ b.arr.length := hwf
  unfold GoSlice.contents goAppend
  split
  next h =>
    exact setSeg_take xs hwf'
  next h =>
    have h1 : (b.arr.take b.len ++ xs).length = b.len + xs.length := by
      simp [List.length_append, List.length_take]
      omega
    exact List.take_of_length_le (le_of_eq h1)

theorem ensure_write_contents (size : Nat) (b : GoSlice) (xs : List Nat)
    (hwf : b.wf) (hxs : xs.length = size) :
    (GoSlice.contents ⟨setSeg (ensure size b).arr b.len xs, (ensure size b).len⟩)
      = b.contents ++ xs := by
  subst hxs
  have h1 := ensure_len xs.length b
  have h2 := ensure_cap_ge xs.length b hwf
  have h3 := ensure_take xs.length b hwf
  simp only [GoSlice.contents, h1]
  rw [setSeg_take xs (by omega)]
  rw [h3]

theorem grow_write_contents (n : Nat) (b : GoSlice) (xs : List Nat)
    (hwf : b.wf) (hxs : xs.length = n) :
    (GoSlice.contents ⟨setSeg (grow b n).arr b.len xs, b.len + n⟩)
      = b.contents ++ xs := by
  subst hxs
  have h2 := grow_cap_ge b xs.length hwf
  have h3 := grow_take b xs.length hwf
  simp only [GoSlice.contents]
  rw [setSeg_take xs (by omega)]
  rw [h3]

theorem AppendTime_contents (alpha : List Nat) (ut : Int) (dst : GoSlice) (hwf : dst.wf) :
    (AppendTime alpha ut dst).contents = dst.contents ++ b32encode alpha (timeSrc ut) := by
  simp only [AppendTime]
  refine ensure_write_contents LenTime dst _ hwf ?_
  have h5 : (timeSrc ut).length = 5 := rfl
  rw [b32encode_length, h5]
  rfl

theorem AppendRandom_contents (alpha rnd : List Nat) (dst : GoSlice)
    (hwf : dst.wf) (hrnd : rnd.length = 5) :
    (AppendRandom alpha rnd dst).contents = dst.contents ++ b32encode alpha rnd := by
  simp only [AppendRandom]
  exact grow_write_contents LenRandom dst _ hwf (by rw [b32encode_length, hrnd]; rfl)

theorem AppendMD5_contents (alpha : List Nat) (digest : List Nat → List Nat)
    (dst : GoSlice) (src : List Nat) (hwf : dst.wf) (hd : (digest src).length = 16) :
    (AppendMD5 alpha digest dst src).contents = dst.contents ++ b32encode alpha (digest src) := by
  simp only [AppendMD5]
  exact ensure_write_contents LenMD5 dst _ hwf (by rw [b32encode_length, hd]; rfl)

theorem appendNorm_fold (src : List Nat) : ∀ d : GoSlice, d.wf →
    (src.foldl (fun d c => if normUpper c ≠ 0 then goAppend d [normUpper c] else d) d).wf ∧
    (src.foldl (fun d c => if normUpper c ≠ 0 then goAppend d [normUpper c] else d) d).contents
      = d.contents ++ normList src := by
  induction src with
  | nil => intro d hwf; simp [normList]; exact hwf
  | cons c s ih =>
    intro d hwf
    simp only [List.foldl_cons, normList, List.filterMap_cons]
    by_cases h : normUpper c = 0
    · simp only [h, ne_eq, not_true_eq_false, if_false]
      simpa [normList] using ih d hwf
    · simp only [h, ne_eq, not_false_eq_true, if_true]
      obtain ⟨hw, hc⟩ := ih (goAppend d [normUpper c]) (goAppend_wf d _ hwf)
      refine ⟨hw, ?_⟩
      rw [hc, goAppend_contents d _ hwf, List.append_assoc]
      simp [normList]

theorem AppendNormalized_contents (dst : GoSlice) (src : List Nat) (hwf : dst.wf) :
    (AppendNormalized dst src).contents = dst.contents ++ normList src := by
  unfold AppendNormalized
  by_cases h : dst.arr.length = 0
  · simp only [h, if_pos rfl, if_true]
    rw [(appendNorm_fold src ⟨List.replicate src.length 0, 0⟩ (by simp [GoSlice.wf])).2]
    have harr : dst.arr = [] := List.length_eq_zero.mp h
    simp [GoSlice.contents, harr]
  · simp only [h, if_false]
    exact (appendNorm_fold src dst hwf).2

theorem Normalized_eq_normList (s : List Nat) : Normalized s = normList s := by
  unfold Normalized
  rw [AppendNormalized_contents _ _ (by simp [GoSlice.wf])]
  simp [GoSlice.contents]

theorem b32encode_len5 (alpha rnd : List Nat) (h : rnd.length = 5) :
    (b32encode alpha rnd).length = 8 := by
  rw [b32encode_length, h]
  rfl

theorem b32encode_len16 (alpha bs : List Nat) (h : bs.length = 16) :
    (b32encode alpha bs).length = 26 := by
  rw [b32encode_length, h]
  rfl

theorem AppendRandom_contents_length (alpha rnd : List Nat) (dst : GoSlice)
    (hrnd : rnd.length = 5) (hwf : dst.wf) :
    (AppendRandom alpha rnd dst).contents.length = dst.contents.length + LenRandom := by
  rw [AppendRandom_contents alpha rnd dst hwf hrnd, List.length_append,
    b32encode_len5 alpha rnd hrnd]
  rfl

/-! ## Normalizer lemmas -/

theorem normPass_fixed : ∀ c ∈ normPass, normUpper c = c := by decide

theorem normLowercase_shift :
    ∀ c ∈ normLowercase,
      normUpper (c + Char.toNat 'A' - Char.toNat 'a') = c + Char.toNat 'A' - Char.toNat 'a' := by
  decide

/-- The bytes `normUpper` does not map to `0`: all the cases of its switch. -/
def normDomain : List Nat :=
  48 :: 79 :: 111 :: 49 :: 73 :: 105 :: (normPass ++ normLowercase)

theorem normUpper_eq_zero_of_not_mem (c : Nat) (h : c ∉ normDomain) : normUpper c = 0 := by
  simp only [normDomain, List.mem_cons, List.mem_append, not_or] at h
  obtain ⟨ha, hb, hc, hd, he, hf, hg⟩ := h
  simp [normUpper, ha, hb, hc, hd, he, hf, hg.1, hg.2]

theorem normDomain_idem : ∀ c ∈ normDomain, normUpper (normUpper c) = normUpper c := by
  decide

theorem normUpper_idem (c : Nat) : normUpper (normUpper c) = normUpper c := by
  by_cases h : c ∈ normDomain
  · exact normDomain_idem c h
  · rw [normUpper_eq_zero_of_not_mem c h]
    decide

theorem normList_idem (s : List Nat) : normList (normList s) = normList s := by
  induction s with
  | nil => rfl
  | cons c t ih =>
    by_cases h : normUpper c = 0
    · simp only [normList, List.filterMap_cons, h, ne_eq, not_true_eq_false, if_false]
      simpa [normList] using ih
    · have hidem := normUpper_idem c
      simp only [normList, List.filterMap_cons, h, ne_eq, not_false_eq_true, if_true,
        hidem]
      simpa [normList] using ih

/-! ## Checksum lemmas -/

theorem foldl_mod (m : Nat) :
    ∀ (bs : List Nat) (r : Nat),
      bs.foldl (fun rem c => (rem * 256 + c) % m) (r % m)
        = (bs.foldl (fun a c => a * 256 + c) r) % m := by
  intro bs
  induction bs with
  | nil => intro r; rfl
  | cons c t ih =>
    intro r
    simp only [List.foldl_cons]
    have hstep : (r % m * 256 + c) % m = (r * 256 + c) % m := by
      conv_lhs => rw [← Nat.mod_add_mod, Nat.mod_mul_mod, Nat.mod_add_mod]
    rw [hstep, ← ih (r * 256 + c)]

theorem mod_eq_beVal (bs : List Nat) (m : Nat) : mod bs m = beVal bs % m := by
  unfold mod beVal
  have h := foldl_mod m bs 0
  rwa [Nat.zero_mod] at h

/-! ## Digit and lexicographic lemmas for the time encoder -/

theorem digitsBE_lt {B : Nat} (hB : 1 < B) :
    ∀ (n : Nat) {u v : Nat}, u < v → v < B ^ n →
      List.Lex (· < ·) (digitsBE B n u) (digitsBE B n v) := by
  intro n
  induction n with
  | zero =>
    intro u v huv hv
    simp only [pow_zero] at hv
    omega
  | succ n ih =>
    intro u v huv hv
    have hBpos : 0 < B ^ n := pow_pos (by omega) n
    have hvd : v / B ^ n < B := by
      rw [Nat.div_lt_iff_lt_mul hBpos]
      calc v < B ^ (n + 1) := hv
        _ = B * B ^ n := by ring
    have hud : u / B ^ n ≤ v / B ^ n := Nat.div_le_div_right (le_of_lt huv)
    rcases lt_or_eq_of_le hud with hlt | heq
    · simp only [digitsBE]
      have h1 : u / B ^ n < B := lt_of_le_of_lt hud hvd
      rw [Nat.mod_eq_of_lt h1, Nat.mod_eq_of_lt hvd]
      exact List.Lex.rel hlt
    · simp only [digitsBE]
      have h1 : u / B ^ n < B := heq ▸ hvd
      rw [Nat.mod_eq_of_lt h1, Nat.mod_eq_of_lt hvd, heq]
      apply List.Lex.cons
      apply ih
      · have hu' := Nat.div_add_mod u (B ^ n)
        have hv' := Nat.div_add_mod v (B ^ n)
        rw [heq] at hu'
        omega
      · exact Nat.mod_lt v hBpos

theorem digitsBE_mem_lt {B : Nat} (hB : 0 < B) :
    ∀ (n u : Nat), ∀ x ∈ digitsBE B n u, x < B := by
  intro n
  induction n with
  | zero => intro u x hx; simp [digitsBE] at hx
  | succ n ih =>
    intro u x hx
    simp only [digitsBE, List.mem_cons] at hx
    rcases hx with rfl | hx
    · exact Nat.mod_lt _ hB
    · exact ih _ x hx

theorem lex_map_of_mono {f : Nat → Nat} {B : Nat}
    (hf : ∀ a b, a < B → b < B → a < b → f a < f b) :
    ∀ {l1 l2 : List Nat}, List.Lex (· < ·) l1 l2 →
      (∀ x ∈ l1, x < B) → (∀ x ∈ l2, x < B) →
      List.Lex (· < ·) (l1.map f) (l2.map f) := by
  intro l1 l2 hlex
  induction hlex with
  | nil =>
    intro _ _
    exact List.Lex.nil
  | @cons a l1' l2' hl ih =>
    intro h1 h2
    simp only [List.map_cons]
    exact List.Lex.cons (ih (fun x hx => h1 x (List.mem_cons_of_mem _ hx))
      (fun x hx => h2 x (List.mem_cons_of_mem _ hx)))
  | @rel a l1' b l2' hab =>
    intro h1 h2
    simp only [List.map_cons]
    exact List.Lex.rel
      (hf a b (h1 a (List.mem_cons_self _ _)) (h2 b (List.mem_cons_self _ _)) hab)

theorem fdiv_two_pow_eq_ediv (x : Int) (k : Nat) :
    x.fdiv ((2 : Int) ^ k) = x / 2 ^ k :=
  Int.fdiv_eq_ediv x (by positivity)

theorem int64Byte_ofNat (u k : Nat) :
    int64Byte ((u : Int).fdiv ((2 : Int) ^ k)) = u / 2 ^ k % 256 := by
  unfold int64Byte
  rw [fdiv_two_pow_eq_ediv]
  norm_cast

theorem int64Byte_ofNat_self (u : Nat) : int64Byte (u : Int) = u % 256 := by
  unfold int64Byte
  norm_cast

theorem timeSrc_ofNat (u : Nat) :
    timeSrc (u : Int) =
      [u / 2 ^ 32 % 256, u / 2 ^ 24 % 256, u / 2 ^ 16 % 256, u / 2 ^ 8 % 256, u % 256] := by
  unfold timeSrc
  rw [int64Byte_ofNat u 32, int64Byte_ofNat u 24, int64Byte_ofNat u 16, int64Byte_ofNat u 8,
    int64Byte_ofNat_self u]

theorem beVal_timeSrc (u : Nat) (h : u < 2 ^ 40) : beVal (timeSrc (u : Int)) = u := by
  rw [timeSrc_ofNat]
  unfold beVal
  simp only [List.foldl_cons, List.foldl_nil]
  omega

theorem Time_eq_digits (alpha : List Nat) (u : Nat) (h : u < 2 ^ 40) :
    Time alpha (u : Int) = (digitsBE 32 8 u).map (fun v => alpha.getD v 0) := by
  unfold Time
  rw [AppendTime_contents _ _ _ (by simp [GoSlice.wf])]
  simp only [GoSlice.contents, List.take_nil, List.nil_append]
  unfold b32encode
  rw [show (timeSrc (u : Int)).length = 5 from rfl, beVal_timeSrc u h]
  norm_num [encodedLen, padBits]

theorem lower_alpha_mono : ∀ b : Nat, b < 32 → ∀ a : Nat, a < b →
    (strBytes LowercaseAlphabet).getD a 0 < (strBytes LowercaseAlphabet).getD b 0 := by
  decide

theorem upper_alpha_mono : ∀ b : Nat, b < 32 → ∀ a : Nat, a < b →
    (strBytes UppercaseAlphabet).getD a 0 < (strBytes UppercaseAlphabet).getD b 0 := by
  decide

/-! ## Truncation lemmas for the time encoder -/

theorem timeSrc_congr (a b : Int) (h : a % 2 ^ 40 = b % 2 ^ 40) :
    timeSrc a = timeSrc b := by
  unfold timeSrc int64Byte
  rw [fdiv_two_pow_eq_ediv a 32, fdiv_two_pow_eq_ediv a 24, fdiv_two_pow_eq_ediv a 16,
    fdiv_two_pow_eq_ediv a 8, fdiv_two_pow_eq_ediv b 32, fdiv_two_pow_eq_ediv b 24,
    fdiv_two_pow_eq_ediv b 16, fdiv_two_pow_eq_ediv b 8]
  norm_num at h ⊢
  refine ⟨?_, ?_, ?_, ?_, ?_⟩ <;> omega

/-! ## Claim theorems -/

/-- C1: for timestamps `t1 < t2` whose Unix second counts both fit in 40
bits, the 8 bytes of `Time t1` are lexicographically (bytewise) smaller
than those of `Time t2`, for the lowercase and the uppercase alphabet. -/
theorem time_lex_monotone (t1 t2 : Int) (h0 : 0 ≤ t1) (hlt : t1 < t2) (h40 : t2 < 2 ^ 40) :
    List.Lex (· < ·) (Time (strBytes LowercaseAlphabet) t1)
      (Time (strBytes LowercaseAlphabet) t2) ∧
    List.Lex (· < ·) (Time (strBytes UppercaseAlphabet) t1)
      (Time (strBytes UppercaseAlphabet) t2) := by
  obtain ⟨u1, rfl⟩ := Int.eq_ofNat_of_zero_le h0
  obtain ⟨u2, rfl⟩ := Int.eq_ofNat_of_zero_le (le_trans h0 (le_of_lt hlt))
  have hu : u1 < u2 := by exact_mod_cast hlt
  have hu2 : u2 < 2 ^ 40 := by exact_mod_cast h40
  have hu1 : u1 < 2 ^ 40 := lt_trans hu hu2
  have hpow : (32 : Nat) ^ 8 = 2 ^ 40 := by norm_num
  have hdig : List.Lex (· < ·) (digitsBE 32 8 u1) (digitsBE 32 8 u2) :=
    digitsBE_lt (by norm_num) 8 hu (hpow ▸ hu2)
  have hm1 := digitsBE_mem_lt (B := 32) (by norm_num) 8 u1
  have hm2 := digitsBE_mem_lt (B := 32) (by norm_num) 8 u2
  constructor
  · rw [Time_eq_digits _ u1 hu1, Time_eq_digits _ u2 hu2]
    exact lex_map_of_mono (fun a b ha hb hab => lower_alpha_mono b hb a hab) hdig hm1 hm2
  · rw [Time_eq_digits _ u1 hu1, Time_eq_digits _ u2 hu2]
    exact lex_map_of_mono (fun a b ha hb hab => upper_alpha_mono b hb a hab) hdig hm1 hm2

/-- Witness for C1 at concrete timestamps. -/
theorem time_lex_monotone_witness :
    List.Lex (· < ·) (Time (strBytes LowercaseAlphabet) 3)
      (Time (strBytes LowercaseAlphabet) 300) ∧
    List.Lex (· < ·) (Time (strBytes UppercaseAlphabet) 3)
      (Time (strBytes UppercaseAlphabet) 300) :=
  time_lex_monotone 3 300 (by norm_num) (by norm_num) (by norm_num)

/-- C6: the time encoder truncates the Unix second count to its low 40
bits and never fails: timestamps congruent modulo `2 ^ 40` give identical
output, and every call appends its 8 bytes. -/
theorem appendTime_truncates_mod_2_40 (t1 t2 : Int) (h : t1 % 2 ^ 40 = t2 % 2 ^ 40) :
    ∀ (alpha : List Nat) (dst : GoSlice),
      AppendTime alpha t1 dst = AppendTime alpha t2 dst ∧
      (AppendTime alpha t1 dst).len = dst.len + LenTime := by
  intro alpha dst
  constructor
  · unfold AppendTime
    rw [timeSrc_congr t1 t2 h]
  · show (ensure LenTime dst).len = dst.len + LenTime
    exact ensure_len LenTime dst

/-- Witness for C6: `2 ^ 40 + 5` and `5` encode identically. -/
theorem appendTime_truncates_witness :
    AppendTime (strBytes LowercaseAlphabet) (2 ^ 40 + 5) ⟨[], 0⟩
      = AppendTime (strBytes LowercaseAlphabet) 5 ⟨[], 0⟩ ∧
    (AppendTime (strBytes LowercaseAlphabet) (2 ^ 40 + 5) ⟨[], 0⟩).len
      = (⟨[], 0⟩ : GoSlice).len + LenTime :=
  appendTime_truncates_mod_2_40 (2 ^ 40 + 5) 5 (by norm_num)
    (strBytes LowercaseAlphabet) ⟨[], 0⟩

/-- C2: for every body and uppercase flag, the iterative reduction `mod`
computes the big-endian base-256 value of the body modulo 37, and
`Checksum` is the character of the selected 37-symbol checksum alphabet
at that index. -/
theorem checksum_bigendian_mod : ∀ (body : List Nat) (uppercase : Bool),
    mod body 37 = beVal body % 37 ∧
    Checksum body uppercase =
      (if uppercase then strBytes UppercaseChecksum else strBytes LowercaseChecksum).getD
        (beVal body % 37) 0 := by
  intro body up
  refine ⟨mod_eq_beVal body 37, ?_⟩
  unfold Checksum
  rw [mod_eq_beVal]

/-- C3: the normalizer maps `o`/`O` to `0`, `i`/`I` to `1`, lowercase valid
letters to their uppercase equivalents (32 below in byte value), drops `-`,
and in particular `Normalized "ab-1O" = "AB10"`. -/
theorem normalizer_mapping :
    normUpper 'o'.toNat = '0'.toNat ∧ normUpper 'O'.toNat = '0'.toNat ∧
    normUpper 'i'.toNat = '1'.toNat ∧ normUpper 'I'.toNat = '1'.toNat ∧
    (normLowercase.all fun c => normUpper c = c - 32) = true ∧
    normUpper '-'.toNat = 0 ∧
    Normalized (strBytes "ab-1O") = strBytes "AB10" := by
  decide

/-- C4: normalization is idempotent: `Normalized (Normalized s) = Normalized s`
for every byte sequence `s`. -/
theorem normalized_idempotent (s : List Nat) :
    Normalized (Normalized s) = Normalized s := by
  rw [Normalized_eq_normList, Normalized_eq_normList, normList_idem]

/-- C5: every `AppendTime` call appends exactly 8 bytes, every
`AppendRandom` call exactly 8 bytes, and every `AppendMD5` call exactly
26 bytes, whatever the timestamp, the digest of the hashed content, or
the initial destination buffer. -/
theorem encoders_output_lengths :
    (∀ (alpha : List Nat) (ut : Int) (dst : GoSlice), dst.wf →
        (AppendTime alpha ut dst).contents.length = dst.contents.length + LenTime) ∧
    (∀ (alpha rnd : List Nat) (dst : GoSlice), rnd.length = 5 → dst.wf →
        (AppendRandom alpha rnd dst).contents.length = dst.contents.length + LenRandom) ∧
    (∀ (alpha : List Nat) (digest : List Nat → List Nat) (dst : GoSlice) (src : List Nat),
        (digest src).length = 16 → dst.wf →
        (AppendMD5 alpha digest dst src).contents.length = dst.contents.length + LenMD5) := by
  refine ⟨?_, ?_, ?_⟩
  · intro alpha ut dst hwf
    rw [AppendTime_contents alpha ut dst hwf, List.length_append,
      b32encode_len5 alpha (timeSrc ut) rfl]
    rfl
  · intro alpha rnd dst hrnd hwf
    exact AppendRandom_contents_length alpha rnd dst hrnd hwf
  · intro alpha digest dst src hd hwf
    rw [AppendMD5_contents alpha digest dst src hwf hd, List.length_append,
      b32encode_len16 alpha (digest src) hd]
    rfl

/-- Witness for C5 at concrete inputs. -/
theorem encoders_output_lengths_witness :
    (AppendTime (strBytes LowercaseAlphabet) 0 ⟨[], 0⟩).contents.length
      = (GoSlice.contents ⟨[], 0⟩).length + LenTime ∧
    (AppendRandom (strBytes LowercaseAlphabet) [1, 2, 3, 4, 5] ⟨[], 0⟩).contents.length
      = (GoSlice.contents ⟨[], 0⟩).length + LenRandom ∧
    (AppendMD5 (strBytes LowercaseAlphabet) (fun _ => List.replicate 16 0) ⟨[], 0⟩
        []).contents.length
      = (GoSlice.contents ⟨[], 0⟩).length + LenMD5 :=
  ⟨encoders_output_lengths.1 (strBytes LowercaseAlphabet) 0 ⟨[], 0⟩ (by decide),
   encoders_output_lengths.2.1 (strBytes LowercaseAlphabet) [1, 2, 3, 4, 5] ⟨[], 0⟩
     (by decide) (by decide),
   encoders_output_lengths.2.2 (strBytes LowercaseAlphabet) (fun _ => List.replicate 16 0)
     ⟨[], 0⟩ [] (by decide) (by decide)⟩

/-- C7: when the spare capacity of the buffer is at least the number of
bytes to be appended, `ensure` and `grow` keep the backing array, so the
result has the same capacity as the input. -/
theorem buffer_growth_capacity_reuse (b : GoSlice) (size : Nat) (_hwf : b.wf)
    (hspare : b.len + size ≤ b.arr.length) :
    (ensure size b).cap = b.cap ∧ (grow b size).cap = b.cap := by
  constructor
  · unfold ensure GoSlice.cap
    rw [if_pos hspare]
  · unfold grow GoSlice.cap goAppend
    by_cases h : b.arr.length - b.len > size
    · rw [if_pos h]
    · rw [if_neg h]
      simp only
      rw [if_pos (by simpa using hspare)]
      exact setSeg_length (by simpa using hspare)

/-- Witness for C7 at a concrete buffer. -/
theorem buffer_growth_capacity_reuse_witness :
    (ensure 2 ⟨[7, 7, 7], 1⟩).cap = GoSlice.cap ⟨[7, 7, 7], 1⟩ ∧
    (grow ⟨[7, 7, 7], 1⟩ 2).cap = GoSlice.cap ⟨[7, 7, 7], 1⟩ :=
  buffer_growth_capacity_reuse ⟨[7, 7, 7], 1⟩ 2 (by decide) (by decide)

/-- C8: every append-style operation returns the old contents of the
destination unchanged, followed by the newly appended bytes. -/
theorem appends_keep_dst_bytes :
    (∀ (alpha : List Nat) (ut : Int) (dst : GoSlice), dst.wf →
        (AppendTime alpha ut dst).contents = dst.contents ++ b32encode alpha (timeSrc ut)) ∧
    (∀ (alpha rnd : List Nat) (dst : GoSlice), rnd.length = 5 → dst.wf →
        (AppendRandom alpha rnd dst).contents = dst.contents ++ b32encode alpha rnd) ∧
    (∀ (alpha : List Nat) (digest : List Nat → List Nat) (dst : GoSlice) (src : List Nat),
        (digest src).length = 16 → dst.wf →
        (AppendMD5 alpha digest dst src).contents
          = dst.contents ++ b32encode alpha (digest src)) ∧
    (∀ (dst : GoSlice) (src : List Nat), dst.wf →
        (AppendNormalized dst src).contents = dst.contents ++ normList src) :=
  ⟨fun alpha ut dst hwf => AppendTime_contents alpha ut dst hwf,
   fun alpha rnd dst hrnd hwf => AppendRandom_contents alpha rnd dst hwf hrnd,
   fun alpha digest dst src hd hwf => AppendMD5_contents alpha digest dst src hwf hd,
   fun dst src hwf => AppendNormalized_contents dst src hwf⟩

/-- Witness for C8 at concrete inputs. -/
theorem appends_keep_dst_bytes_witness :
    (AppendTime (strBytes UppercaseAlphabet) 1 ⟨[9, 9], 2⟩).contents
      = (GoSlice.contents ⟨[9, 9], 2⟩)
        ++ b32encode (strBytes UppercaseAlphabet) (timeSrc 1) ∧
    (AppendRandom (strBytes UppercaseAlphabet) [5, 4, 3, 2, 1] ⟨[9, 9], 2⟩).contents
      = (GoSlice.contents ⟨[9, 9], 2⟩)
        ++ b32encode (strBytes UppercaseAlphabet) [5, 4, 3, 2, 1] ∧
    (AppendMD5 (strBytes UppercaseAlphabet) (fun _ => List.replicate 16 1) ⟨[9, 9], 2⟩
        [3]).contents
      = (GoSlice.contents ⟨[9, 9], 2⟩)
        ++ b32encode (strBytes UppercaseAlphabet) ((fun _ => List.replicate 16 1) [3]) ∧
    (AppendNormalized ⟨[9, 9], 2⟩ [97, 45]).contents
      = (GoSlice.contents ⟨[9, 9], 2⟩) ++ normList [97, 45] :=
  ⟨appends_keep_dst_bytes.1 (strBytes UppercaseAlphabet) 1 ⟨[9, 9], 2⟩ (by decide),
   appends_keep_dst_bytes.2.1 (strBytes UppercaseAlphabet) [5, 4, 3, 2, 1] ⟨[9, 9], 2⟩
     (by decide) (by decide),
   appends_keep_dst_bytes.2.2.1 (strBytes UppercaseAlphabet) (fun _ => List.replicate 16 1)
     ⟨[9, 9], 2⟩ [3] (by decide) (by decide),
   appends_keep_dst_bytes.2.2.2 ⟨[9, 9], 2⟩ [97, 45] (by decide)⟩

/-- C9: when the entropy source fails, `AppendRandom` panics (the error is
propagated, no degraded result is returned); when it succeeds, the call
completes normally with the full 8 appended bytes. -/
theorem random_entropy_failure_panics :
    (∀ (alpha : List Nat) (dst : GoSlice),
        AppendRandomChecked alpha none dst
          = Except.error "panic: entropy source failure") ∧
    (∀ (alpha rnd : List Nat) (dst : GoSlice), rnd.length = 5 → dst.wf →
        AppendRandomChecked alpha (some rnd) dst = Except.ok (AppendRandom alpha rnd dst) ∧
        (AppendRandom alpha rnd dst).contents.length = dst.contents.length + LenRandom) :=
  ⟨fun _ _ => rfl,
   fun alpha rnd dst hrnd hwf =>
     ⟨rfl, AppendRandom_contents_length alpha rnd dst hrnd hwf⟩⟩

/-- Witness for C9 at concrete inputs. -/
theorem random_entropy_failure_panics_witness :
    AppendRandomChecked (strBytes LowercaseAlphabet) none ⟨[], 0⟩
      = Except.error "panic: entropy source failure" ∧
    AppendRandomChecked (strBytes LowercaseAlphabet) (some [1, 1, 1, 1, 1]) ⟨[], 0⟩
      = Except.ok (AppendRandom (strBytes LowercaseAlphabet) [1, 1, 1, 1, 1] ⟨[], 0⟩) ∧
    (AppendRandom (strBytes LowercaseAlphabet) [1, 1, 1, 1, 1] ⟨[], 0⟩).contents.length
      = (GoSlice.contents ⟨[], 0⟩).length + LenRandom :=
  ⟨random_entropy_failure_panics.1 (strBytes LowercaseAlphabet) ⟨[], 0⟩,
   (random_entropy_failure_panics.2 (strBytes LowercaseAlphabet) [1, 1, 1, 1, 1] ⟨[], 0⟩
       (by decide) (by decide)).1,
   (random_entropy_failure_panics.2 (strBytes LowercaseAlphabet) [1, 1, 1, 1, 1] ⟨[], 0⟩
       (by decide) (by decide)).2⟩

/-- C10: the checksum of the empty byte sequence is the character `0` for
both checksum alphabets, because the empty reduction is 0 and both
alphabets start with `0`. -/
theorem checksum_empty_is_zero :
    Checksum [] true = '0'.toNat ∧ Checksum [] false = '0'.toNat ∧ mod [] 37 = 0 := by
  decide

end Crockford
